import Mathlib

/-!
Verification of `DumpTree.py`, a script that recursively walks a directory
and writes an indented textual tree of its contents to a report file.

The file system visible to the script is modelled as an inductive tree:
a file carries the result of reading its size (`none` models an `OSError`
raised by `os.path.getsize`), a directory carries the result of listing it
(`none` models an `OSError` raised by `os.listdir`).  The recursive
routine `print_tree` is embedded as a function from such a tree to the
list of lines it writes, returning `Except.error ()` when an uncaught
listing failure aborts the run.
-/

namespace DumpTree

/-- A node of the file-system tree seen by the script.  `file name size`
models a non-directory entry (`size = none` when `os.path.getsize` raises
`OSError`); `dir name listing` models a directory (`listing = none` when
`os.listdir` raises `OSError`). -/
inductive FSNode where
  | file (name : String) (size : Option Nat)
  | dir (name : String) (listing : Option (List FSNode))
deriving Repr

/-- Name of an entry, as `os.listdir` returns it. -/
def FSNode.name : FSNode → String
  | .file n _ => n
  | .dir n _ => n

/-- Python `s.endswith(suf)`: the characters of `suf` are a suffix of the
characters of `s`. -/
def strEndsWith (s suf : String) : Bool :=
  suf.data.isSuffixOf s.data

/-- Exclusion test of lines 9-10 of `DumpTree.py`:
`e in {".git", ".idea", "out", "build"} or e.endswith((".class", ".iml"))`. -/
def excludedName (e : String) : Bool :=
  (e == ".git" || e == ".idea" || e == "out" || e == "build")
    || (strEndsWith e ".class" || strEndsWith e ".iml")

/-- The order `sorted` applies to the names returned by `os.listdir`
(lexicographic comparison of the names, lifted to entries). -/
def nameLe (a b : FSNode) : Prop :=
  a.name ≤ b.name

instance : DecidableRel nameLe :=
  fun a b => decidable_of_iff (a.name.toList ≤ b.name.toList) String.le_iff_toList_le.symm

instance : IsTotal FSNode nameLe :=
  ⟨fun a b => le_total a.name b.name⟩

instance : IsTrans FSNode nameLe :=
  ⟨fun _ _ _ h₁ h₂ => le_trans h₁ h₂⟩

/-- Lines 8-10 of `DumpTree.py`: `entries = sorted(os.listdir(root))`
followed by the exclusion filter.  Python `sorted` is a stable sort by
name; it is modelled by the stable `insertionSort` under `nameLe`. -/
def keptEntries (cs : List FSNode) : List FSNode :=
  (List.insertionSort nameLe cs).filter (fun e => !excludedName e.name)

/-- Lines 21-25 of `DumpTree.py`: the status string of a file entry,
`"[EMPTY]"` when `os.path.getsize` returned 0, `"[OK]"` when it returned a
positive size, and `"[?]"` when it raised `OSError`. -/
def fileStatus : Option Nat → String
  | some 0 => "[EMPTY]"
  | some _ => "[OK]"
  | none => "[?]"

mutual

/-- Size measure of a node, used for the termination of the renderer. -/
def sizeN : FSNode → Nat
  | .file _ _ => 1
  | .dir _ none => 1
  | .dir _ (some cs) => 2 + sizeL cs

/-- Size measure of a listing. -/
def sizeL : List FSNode → Nat
  | [] => 0
  | e :: rest => sizeN e + sizeL rest

end

/-- Size measure of a listing result. -/
def sizeO : Option (List FSNode) → Nat
  | none => 0
  | some cs => 1 + sizeL cs

theorem one_le_sizeN (e : FSNode) : 1 ≤ sizeN e := by
  cases e with
  | file n s => simp [sizeN]
  | dir n lst => cases lst <;> simp [sizeN] <;> omega

theorem sizeL_perm {l₁ l₂ : List FSNode} (h : l₁.Perm l₂) : sizeL l₁ = sizeL l₂ := by
  induction h with
  | nil => rfl
  | cons x _ ih => simp [sizeL, ih]
  | swap x y l => simp [sizeL]; omega
  | trans _ _ ih₁ ih₂ => omega

theorem sizeL_filter_le (p : FSNode → Bool) (l : List FSNode) :
    sizeL (l.filter p) ≤ sizeL l := by
  induction l with
  | nil => simp [sizeL]
  | cons e rest ih =>
    by_cases h : p e <;> simp [List.filter_cons, h, sizeL] <;> omega

theorem sizeL_keptEntries_le (cs : List FSNode) : sizeL (keptEntries cs) ≤ sizeL cs :=
  calc sizeL (keptEntries cs) ≤ sizeL (List.insertionSort nameLe cs) :=
        sizeL_filter_le _ _
  _ = sizeL cs := sizeL_perm (List.perm_insertionSort nameLe cs)

/-- One line written by `print_tree`, annotated with the data in scope at
the `file.write` call that produced it (line 16 or line 26 of
`DumpTree.py`): the recursion depth `depth` (number of ancestor
directories between the entry and the traversal root), the indentation
string `pre` (the `prefix` parameter of the call), and the entry `name`.
The text written is `line`. -/
structure RLine where
  depth : Nat
  pre : String
  name : String
  line : String
deriving Repr, DecidableEq

mutual

/-- Shallow embedding of `print_tree(root, file, prefix)` (lines 7-26 of
`DumpTree.py`), instrumented with the depth and prefix annotations of
`RLine`.  The argument is the result of listing `root` (`none`: `os.listdir`
raised, which the function does not catch, modelled by `Except.error ()`).
The plain output of the script is the `line` projection, `print_tree`
below. -/
def print_treeA : Option (List FSNode) → String → Nat → Except Unit (List RLine)
  | none, _, _ => .error ()
  | some cs, pre, d => renderLoopA (keptEntries cs) pre d
termination_by lst _ _ => sizeO lst
decreasing_by
  simp [sizeO]
  have := sizeL_keptEntries_le cs
  omega

/-- The `for i, entry in enumerate(entries)` loop of lines 12-26 of
`DumpTree.py`, processing the sorted, filtered entries of one directory.
`rest.isEmpty` is `i == len(entries) - 1`. -/
def renderLoopA : List FSNode → String → Nat → Except Unit (List RLine)
  | [], _, _ => .ok []
  | e :: rest, pre, d =>
    let connector := if rest.isEmpty then "└── " else "├── "
    match e with
    | .dir nm listing => do
        let extension := if rest.isEmpty then "    " else "│   "
        let sub ← print_treeA listing (pre ++ extension) (d + 1)
        let tail ← renderLoopA rest pre d
        .ok (⟨d, pre, nm, pre ++ connector ++ nm ++ "/"⟩ :: (sub ++ tail))
    | .file nm sz => do
        let tail ← renderLoopA rest pre d
        .ok (⟨d, pre, nm, pre ++ connector ++ nm ++ " " ++ fileStatus sz⟩ :: tail)
termination_by l _ _ => sizeL l
decreasing_by
  · cases listing <;> simp [sizeO, sizeL, sizeN] <;> omega
  · have := one_le_sizeN (FSNode.dir nm listing)
    simp [sizeL]
    omega
  · have := one_le_sizeN (FSNode.file nm sz)
    simp [sizeL]
    omega

end

/-- The list of lines `print_tree` writes, in order: the `line` projection
of the instrumented renderer, started at depth 0. -/
def print_tree (lst : Option (List FSNode)) (pre : String) : Except Unit (List String) :=
  (print_treeA lst pre 0).map (fun rs => rs.map RLine.line)

/-- Fuel-bounded interpreter of `print_tree`: identical to `print_treeA`
and `renderLoopA` (an `.inl` argument is a `print_tree` call, an `.inr`
argument is the rendering loop over the remaining entries of one
directory), except that every step consumes one unit of fuel and exhausted
fuel yields `none`.  It is structurally recursive, and adequate fuel
exists for every finite tree (`fuelTree_spec`), which expresses that the
recursion of lines 7-26 of `DumpTree.py` terminates. -/
def fuelGo : Nat → (Option (List FSNode) ⊕ List FSNode) → String → Nat →
    Option (Except Unit (List RLine))
  | 0, _, _, _ => none
  | _ + 1, .inl none, _, _ => some (.error ())
  | f + 1, .inl (some cs), pre, d => fuelGo f (.inr (keptEntries cs)) pre d
  | _ + 1, .inr [], _, _ => some (.ok [])
  | f + 1, .inr (e :: rest), pre, d =>
    match e with
    | .dir nm listing =>
      (match fuelGo f (.inl listing)
          (pre ++ (if rest.isEmpty then "    " else "│   ")) (d + 1) with
        | none => none
        | some (.error u) => some (.error u)
        | some (.ok sub) =>
          match fuelGo f (.inr rest) pre d with
          | none => none
          | some (.error u) => some (.error u)
          | some (.ok tail) =>
            some (.ok (⟨d, pre, nm,
              pre ++ (if rest.isEmpty then "└── " else "├── ") ++ nm ++ "/"⟩ :: (sub ++ tail))))
    | .file nm sz =>
      (match fuelGo f (.inr rest) pre d with
        | none => none
        | some (.error u) => some (.error u)
        | some (.ok tail) =>
          some (.ok (⟨d, pre, nm,
            pre ++ (if rest.isEmpty then "└── " else "├── ") ++ nm ++ " " ++ fileStatus sz⟩
            :: tail)))

/-- The fuel-bounded interpreter started on a `print_tree` call. -/
def fuelTree (f : Nat) (lst : Option (List FSNode)) (pre : String) (d : Nat) :
    Option (Except Unit (List RLine)) :=
  fuelGo f (.inl lst) pre d

theorem sizeN_dir (nm : String) (lst : Option (List FSNode)) :
    sizeN (.dir nm lst) = 1 + sizeO lst := by
  cases lst <;> simp [sizeN, sizeO] <;> omega

theorem fuelGo_spec :
    ∀ f : Nat,
      (∀ lst pre d, sizeO lst < f →
        fuelGo f (.inl lst) pre d = some (print_treeA lst pre d)) ∧
      (∀ l pre d, sizeL l < f →
        fuelGo f (.inr l) pre d = some (renderLoopA l pre d)) := by
  intro f
  induction f with
  | zero =>
    constructor <;> (intro x pre d h; omega)
  | succ f ih =>
    obtain ⟨ihT, ihL⟩ := ih
    constructor
    · intro lst pre d h
      match lst with
      | none => simp [fuelGo, print_treeA]
      | some cs =>
        have h1 : sizeL (keptEntries cs) < f := by
          have := sizeL_keptEntries_le cs
          simp [sizeO] at h
          omega
        calc fuelGo (f + 1) (.inl (some cs)) pre d
            = fuelGo f (.inr (keptEntries cs)) pre d := by simp [fuelGo]
        _ = some (renderLoopA (keptEntries cs) pre d) := ihL _ _ _ h1
        _ = some (print_treeA (some cs) pre d) := by rw [print_treeA]
    · intro l pre d h
      match l with
      | [] => simp [fuelGo, renderLoopA]
      | e :: rest =>
        match e with
        | .dir nm listing =>
          have hsz : sizeO listing < f := by
            have h1 : sizeL (FSNode.dir nm listing :: rest) =
                sizeN (.dir nm listing) + sizeL rest := rfl
            rw [sizeN_dir] at h1
            omega
          have hrest : sizeL rest < f := by
            have h1 : sizeL (FSNode.dir nm listing :: rest) =
                sizeN (.dir nm listing) + sizeL rest := rfl
            have := one_le_sizeN (FSNode.dir nm listing)
            omega
          simp only [fuelGo, renderLoopA, ihT listing _ _ hsz, ihL _ _ _ hrest]
          cases print_treeA listing (pre ++ (if rest.isEmpty then "    " else "│   ")) (d + 1) <;>
            cases renderLoopA rest pre d <;>
              rfl
        | .file nm sz =>
          have hrest : sizeL rest < f := by
            have h1 : sizeL (FSNode.file nm sz :: rest) =
                sizeN (.file nm sz) + sizeL rest := rfl
            have := one_le_sizeN (FSNode.file nm sz)
            omega
          simp only [fuelGo, renderLoopA, ihL _ _ _ hrest]
          cases renderLoopA rest pre d <;> rfl

theorem fuelTree_spec (f : Nat) (lst : Option (List FSNode)) (pre : String) (d : Nat)
    (h : sizeO lst < f) : fuelTree f lst pre d = some (print_treeA lst pre d) :=
  (fuelGo_spec f).1 lst pre d h

theorem print_treeA_fuel (lst : Option (List FSNode)) (pre : String) (d : Nat) :
    fuelGo (sizeO lst + 1) (.inl lst) pre d = some (print_treeA lst pre d) :=
  fuelTree_spec _ _ _ _ (Nat.lt_succ_self _)

theorem mem_keptEntries {e : FSNode} {cs : List FSNode} :
    e ∈ keptEntries cs ↔ e ∈ cs ∧ excludedName e.name = false := by
  simp [keptEntries, List.mem_filter, List.mem_insertionSort]

theorem kept_pairwise_le (cs : List FSNode) : (keptEntries cs).Pairwise nameLe :=
  (List.sorted_insertionSort nameLe cs).filter _

theorem kept_names_nodup {cs : List FSNode} (hnd : (cs.map FSNode.name).Nodup) :
    ((keptEntries cs).map FSNode.name).Nodup := by
  have h1 : ((List.insertionSort nameLe cs).map FSNode.name).Nodup :=
    (((List.perm_insertionSort nameLe cs).map FSNode.name).nodup_iff).mpr hnd
  exact h1.sublist ((List.filter_sublist _).map FSNode.name)

theorem kept_names_sorted_lt {cs : List FSNode} (hnd : (cs.map FSNode.name).Nodup) :
    ((keptEntries cs).map FSNode.name).Pairwise (· < ·) := by
  have hle : ((keptEntries cs).map FSNode.name).Pairwise (· ≤ ·) :=
    (List.pairwise_map).mpr (kept_pairwise_le cs)
  have hne : ((keptEntries cs).map FSNode.name).Pairwise (· ≠ ·) :=
    kept_names_nodup hnd
  exact (hle.and hne).imp (fun h => lt_of_le_of_ne h.1 h.2)

/-- Evaluation bridge: a computation of the fuel-bounded interpreter at
sufficient fuel determines the value of `print_treeA`. -/
theorem print_treeA_eval (lst : Option (List FSNode)) (pre : String) (d : Nat)
    (x : Except Unit (List RLine))
    (h : fuelTree (sizeO lst + 1) lst pre d = some x) :
    print_treeA lst pre d = x :=
  Option.some.inj ((fuelTree_spec _ _ _ _ (Nat.lt_succ_self _)).symm.trans h)

theorem length_ext (b : Bool) :
    ((if b then "    " else "│   ") : String).length = 4 := by
  cases b <;> rfl

/-- Per-record facts of the renderer output: every record is at depth at
least the starting depth, its recorded indentation string is the starting
prefix extended by exactly four characters per directory level descended,
and its written line is the recorded indentation followed by one of the
two connectors. -/
theorem fuelGo_records (f : Nat) :
    ∀ (arg : Option (List FSNode) ⊕ List FSNode) (pre : String) (d : Nat) (out : List RLine),
      fuelGo f arg pre d = some (.ok out) →
      ∀ r ∈ out, d ≤ r.depth ∧ r.pre.length = pre.length + 4 * (r.depth - d) ∧
        ∃ t, r.line = r.pre ++ "├── " ++ t ∨ r.line = r.pre ++ "└── " ++ t := by
  induction f with
  | zero =>
    intro arg pre d out h
    simp [fuelGo] at h
  | succ f ih =>
    intro arg pre d out h
    match arg with
    | .inl none => simp [fuelGo] at h
    | .inl (some cs) =>
      simp only [fuelGo] at h
      exact ih _ pre d out h
    | .inr [] =>
      simp only [fuelGo, Option.some.injEq, Except.ok.injEq] at h
      subst h
      simp
    | .inr (FSNode.dir nm listing :: rest) =>
      simp only [fuelGo] at h
      cases hsub : fuelGo f (.inl listing)
          (pre ++ (if rest.isEmpty then "    " else "│   ")) (d + 1) with
      | none => rw [hsub] at h; simp at h
      | some s =>
        rw [hsub] at h
        cases s with
        | error u => simp at h
        | ok sub =>
          cases htail : fuelGo f (.inr rest) pre d with
          | none => rw [htail] at h; simp at h
          | some t =>
            rw [htail] at h
            cases t with
            | error u => simp at h
            | ok tail =>
              simp only [Option.some.injEq, Except.ok.injEq] at h
              subst h
              intro r hr
              rcases List.mem_cons.mp hr with hr | hr
              · subst hr
                refine ⟨Nat.le_refl _, by simp, ⟨nm ++ "/", ?_⟩⟩
                cases hrest : rest.isEmpty <;>
                  simp [hrest, String.append_assoc]
              · rcases List.mem_append.mp hr with hr | hr
                · obtain ⟨h1, h2, h3⟩ := ih _ _ _ _ hsub r hr
                  refine ⟨by omega, ?_, h3⟩
                  rw [h2, String.length_append, length_ext]
                  omega
                · exact ih _ _ _ _ htail r hr
    | .inr (FSNode.file nm sz :: rest) =>
      simp only [fuelGo] at h
      cases htail : fuelGo f (.inr rest) pre d with
      | none => rw [htail] at h; simp at h
      | some t =>
        rw [htail] at h
        cases t with
        | error u => simp at h
        | ok tail =>
          simp only [Option.some.injEq, Except.ok.injEq] at h
          subst h
          intro r hr
          rcases List.mem_cons.mp hr with hr | hr
          · subst hr
            refine ⟨Nat.le_refl _, by simp, ⟨nm ++ " " ++ fileStatus sz, ?_⟩⟩
            cases hrest : rest.isEmpty <;>
              simp [hrest, String.append_assoc]
          · exact ih _ _ _ _ htail r hr

/-- No record of the renderer output carries an excluded name: the filter
of lines 9-10 is applied at every recursion level before anything at that
level is written. -/
theorem fuelGo_excl (f : Nat) :
    ∀ (arg : Option (List FSNode) ⊕ List FSNode) (pre : String) (d : Nat) (out : List RLine),
      fuelGo f arg pre d = some (.ok out) →
      (∀ l, arg = .inr l → ∀ e ∈ l, excludedName e.name = false) →
      ∀ r ∈ out, excludedName r.name = false := by
  induction f with
  | zero =>
    intro arg pre d out h
    simp [fuelGo] at h
  | succ f ih =>
    intro arg pre d out h hl
    match arg with
    | .inl none => simp [fuelGo] at h
    | .inl (some cs) =>
      simp only [fuelGo] at h
      refine ih _ pre d out h ?_ 
      intro l hl' e he
      cases hl'
      exact (mem_keptEntries.mp he).2
    | .inr [] =>
      simp only [fuelGo, Option.some.injEq, Except.ok.injEq] at h
      subst h
      simp
    | .inr (FSNode.dir nm listing :: rest) =>
      have hhead : excludedName (FSNode.dir nm listing).name = false :=
        hl _ rfl _ (List.mem_cons_self _ _)
      have hrest : ∀ l, (Sum.inr rest : Option (List FSNode) ⊕ List FSNode) = .inr l →
          ∀ e ∈ l, excludedName e.name = false := by
        intro l hl' e he
        cases hl'
        exact hl _ rfl _ (List.mem_cons_of_mem _ he)
      simp only [fuelGo] at h
      cases hsub : fuelGo f (.inl listing)
          (pre ++ (if rest.isEmpty then "    " else "│   ")) (d + 1) with
      | none => rw [hsub] at h; simp at h
      | some s =>
        rw [hsub] at h
        cases s with
        | error u => simp at h
        | ok sub =>
          cases htail : fuelGo f (.inr rest) pre d with
          | none => rw [htail] at h; simp at h
          | some t =>
            rw [htail] at h
            cases t with
            | error u => simp at h
            | ok tail =>
              simp only [Option.some.injEq, Except.ok.injEq] at h
              subst h
              intro r hr
              rcases List.mem_cons.mp hr with hr | hr
              · subst hr
                exact hhead
              · rcases List.mem_append.mp hr with hr | hr
                · exact ih _ _ _ _ hsub (fun l hl' => nomatch hl') r hr
                · exact ih _ _ _ _ htail hrest r hr
    | .inr (FSNode.file nm sz :: rest) =>
      have hhead : excludedName (FSNode.file nm sz).name = false :=
        hl _ rfl _ (List.mem_cons_self _ _)
      have hrest : ∀ l, (Sum.inr rest : Option (List FSNode) ⊕ List FSNode) = .inr l →
          ∀ e ∈ l, excludedName e.name = false := by
        intro l hl' e he
        cases hl'
        exact hl _ rfl _ (List.mem_cons_of_mem _ he)
      simp only [fuelGo] at h
      cases htail : fuelGo f (.inr rest) pre d with
      | none => rw [htail] at h; simp at h
      | some t =>
        rw [htail] at h
        cases t with
        | error u => simp at h
        | ok tail =>
          simp only [Option.some.injEq, Except.ok.injEq] at h
          subst h
          intro r hr
          rcases List.mem_cons.mp hr with hr | hr
          · subst hr
            exact hhead
          · exact ih _ _ _ _ htail hrest r hr

/-- The line written for one entry of the loop (line 16 or line 26 of
`DumpTree.py`), as a function of the prefix and the last-entry flag. -/
def ownLine (pre : String) (isLast : Bool) : FSNode → String
  | .dir nm _ => pre ++ (if isLast then "└── " else "├── ") ++ nm ++ "/"
  | .file nm sz => pre ++ (if isLast then "└── " else "├── ") ++ nm ++ " " ++ fileStatus sz

/-- The lines the loop writes for its own entries, one line per entry, in
loop order. -/
def ownLines : List FSNode → String → List String
  | [], _ => []
  | e :: rest, pre => ownLine pre rest.isEmpty e :: ownLines rest pre

theorem ownLines_length (l : List FSNode) (pre : String) :
    (ownLines l pre).length = l.length := by
  induction l with
  | nil => rfl
  | cons e rest ih => simp [ownLines, ih]

/-- The records of the output that belong to one recursion level. -/
def levelRecs (out : List RLine) (d : Nat) : List RLine :=
  out.filter (fun r => r.depth == d)

theorem levelRecs_nil_of_deep {out : List RLine} {d : Nat}
    (h : ∀ r ∈ out, d + 1 ≤ r.depth) : levelRecs out d = [] := by
  rw [levelRecs, List.filter_eq_nil]
  intro r hr
  have := h r hr
  simp
  omega

theorem levelRecs_cons (r : RLine) (l : List RLine) (d : Nat) :
    levelRecs (r :: l) d =
      if r.depth == d then r :: levelRecs l d else levelRecs l d := by
  simp [levelRecs, List.filter_cons]

theorem levelRecs_append (l₁ l₂ : List RLine) (d : Nat) :
    levelRecs (l₁ ++ l₂) d = levelRecs l₁ d ++ levelRecs l₂ d := by
  simp [levelRecs, List.filter_append]

/-- Level decomposition of the renderer output: the records of the
starting level list exactly the processed entries, in processing order,
and their lines are the corresponding `ownLine`s. -/
theorem fuelGo_level (f : Nat) :
    (∀ cs pre d out, fuelGo f (.inl (some cs)) pre d = some (.ok out) →
       (levelRecs out d).map RLine.name = (keptEntries cs).map FSNode.name ∧
       (levelRecs out d).map RLine.line = ownLines (keptEntries cs) pre) ∧
    (∀ l pre d out, fuelGo f (.inr l) pre d = some (.ok out) →
       (levelRecs out d).map RLine.name = l.map FSNode.name ∧
       (levelRecs out d).map RLine.line = ownLines l pre) := by
  induction f with
  | zero =>
    constructor <;> (intro x pre d out h; simp [fuelGo] at h)
  | succ f ih =>
    obtain ⟨ihT, ihL⟩ := ih
    constructor
    · intro cs pre d out h
      simp only [fuelGo] at h
      exact ihL _ _ _ _ h
    · intro l pre d out h
      match l with
      | [] =>
        simp only [fuelGo, Option.some.injEq, Except.ok.injEq] at h
        subst h
        simp [levelRecs, ownLines]
      | FSNode.dir nm listing :: rest =>
        simp only [fuelGo] at h
        cases hsub : fuelGo f (.inl listing)
            (pre ++ (if rest.isEmpty then "    " else "│   ")) (d + 1) with
        | none => rw [hsub] at h; simp at h
        | some s =>
          rw [hsub] at h
          cases s with
          | error u => simp at h
          | ok sub =>
            cases htail : fuelGo f (.inr rest) pre d with
            | none => rw [htail] at h; simp at h
            | some t =>
              rw [htail] at h
              cases t with
              | error u => simp at h
              | ok tail =>
                simp only [Option.some.injEq, Except.ok.injEq] at h
                subst h
                have hdeep : levelRecs sub d = [] :=
                  levelRecs_nil_of_deep (fun r hr => (fuelGo_records f _ _ _ _ hsub r hr).1)
                obtain ⟨hn, hli⟩ := ihL _ _ _ _ htail
                rw [levelRecs_cons, levelRecs_append, hdeep]
                simp only [List.nil_append, beq_self_eq_true, if_true]
                constructor
                · simp [hn, FSNode.name]
                · simp [ownLines, ownLine, hli]
      | FSNode.file nm sz :: rest =>
        simp only [fuelGo] at h
        cases htail : fuelGo f (.inr rest) pre d with
        | none => rw [htail] at h; simp at h
        | some t =>
          rw [htail] at h
          cases t with
          | error u => simp at h
          | ok tail =>
            simp only [Option.some.injEq, Except.ok.injEq] at h
            subst h
            obtain ⟨hn, hli⟩ := ihL _ _ _ _ htail
            rw [levelRecs_cons]
            simp only [beq_self_eq_true, if_true]
            constructor
            · simp [hn, FSNode.name]
            · simp [ownLines, ownLine, hli]

mutual

/-- Success condition of the recursion for one entry of the loop: a file
never aborts the loop (its size-read failure is caught on lines 21-25); a
directory aborts iff its own listing fails or, recursively, a retained
descendant directory's listing fails. -/
def dirOkN : FSNode → Bool
  | .file _ _ => true
  | .dir _ none => false
  | .dir _ (some cs) => listingsOkL cs

/-- Success condition of `print_tree` on a directory whose listing
succeeded with entries `cs`: every retained entry must be recursively
listable (excluded entries are never visited, so they never abort). -/
def listingsOkL : List FSNode → Bool
  | [] => true
  | e :: rest => (excludedName e.name || dirOkN e) && listingsOkL rest

end

/-- Success condition of a `print_tree` call: the listing itself succeeded
and all retained descendant directories are listable. -/
def listingsOkO : Option (List FSNode) → Bool
  | none => false
  | some cs => listingsOkL cs

theorem dirOkN_dir (nm : String) (lst : Option (List FSNode)) :
    dirOkN (.dir nm lst) = listingsOkO lst := by
  cases lst <;> rfl

theorem listingsOkL_eq_all (cs : List FSNode) :
    listingsOkL cs = cs.all (fun e => excludedName e.name || dirOkN e) := by
  induction cs with
  | nil => rfl
  | cons e rest ih => simp [listingsOkL, List.all_cons, ih]

theorem keptEntries_all_dirOk (cs : List FSNode) :
    (keptEntries cs).all dirOkN = listingsOkL cs := by
  rw [listingsOkL_eq_all, Bool.eq_iff_iff]
  simp only [List.all_eq_true]
  constructor
  · intro h e he
    by_cases hex : excludedName e.name
    · simp [hex]
    · have : e ∈ keptEntries cs :=
        mem_keptEntries.mpr ⟨he, by simpa using hex⟩
      simp [h e this]
  · intro h e he
    obtain ⟨hmem, hex⟩ := mem_keptEntries.mp he
    have := h e hmem
    simp [hex] at this
    simp [this]

/-- Success of the fuel-bounded interpreter, given adequate fuel, is
exactly the `listingsOk` condition; in particular it does not depend on
any file size. -/
theorem fuelGo_success :
    ∀ f : Nat,
      (∀ lst pre d, sizeO lst < f →
        ((∃ out, fuelGo f (.inl lst) pre d = some (.ok out)) ↔ listingsOkO lst = true)) ∧
      (∀ l pre d, sizeL l < f →
        ((∃ out, fuelGo f (.inr l) pre d = some (.ok out)) ↔ l.all dirOkN = true)) := by
  intro f
  induction f with
  | zero =>
    constructor <;> (intro x pre d h; omega)
  | succ f ih =>
    obtain ⟨ihT, ihL⟩ := ih
    constructor
    · intro lst pre d h
      match lst with
      | none =>
        simp [fuelGo, listingsOkO]
      | some cs =>
        have h1 : sizeL (keptEntries cs) < f := by
          have := sizeL_keptEntries_le cs
          simp [sizeO] at h
          omega
        simp only [fuelGo, listingsOkO]
        rw [← keptEntries_all_dirOk]
        exact ihL _ pre d h1
    · intro l pre d h
      match l with
      | [] => simp [fuelGo]
      | FSNode.dir nm listing :: rest =>
        have hszL : sizeO listing < f := by
          have h1 : sizeL (FSNode.dir nm listing :: rest) =
              sizeN (.dir nm listing) + sizeL rest := rfl
          rw [sizeN_dir] at h1
          omega
        have hszR : sizeL rest < f := by
          have h1 : sizeL (FSNode.dir nm listing :: rest) =
              sizeN (.dir nm listing) + sizeL rest := rfl
          have := one_le_sizeN (FSNode.dir nm listing)
          omega
        simp only [fuelGo, List.all_cons, dirOkN_dir]
        cases hsub : fuelGo f (.inl listing)
            (pre ++ (if rest.isEmpty then "    " else "│   ")) (d + 1) with
        | none =>
          have hspec := (fuelGo_spec f).1 listing
            (pre ++ (if rest.isEmpty then "    " else "│   ")) (d + 1) hszL
          rw [hsub] at hspec
          simp at hspec
        | some s =>
          cases s with
          | error u =>
            have hfalse : listingsOkO listing = false := by
              rw [← Bool.not_eq_true]
              intro htrue
              obtain ⟨out, ho⟩ := (ihT listing
                (pre ++ (if rest.isEmpty then "    " else "│   ")) (d + 1) hszL).mpr htrue
              rw [hsub] at ho
              simp at ho
            simp [hfalse]
          | ok sub =>
            have htrueL : listingsOkO listing = true :=
              (ihT listing (pre ++ (if rest.isEmpty then "    " else "│   "))
                (d + 1) hszL).mp ⟨sub, hsub⟩
            cases htail : fuelGo f (.inr rest) pre d with
            | none =>
              have hspec := (fuelGo_spec f).2 rest pre d hszR
              rw [htail] at hspec
              simp at hspec
            | some t =>
              cases t with
              | error u =>
                have hfr : rest.all dirOkN = false := by
                  rw [← Bool.not_eq_true]
                  intro htrue
                  obtain ⟨out, ho⟩ := (ihL rest pre d hszR).mpr htrue
                  rw [htail] at ho
                  simp at ho
                simp [hfr]
              | ok tail =>
                have hft : rest.all dirOkN = true := (ihL rest pre d hszR).mp ⟨tail, htail⟩
                simp [htrueL, hft]
      | FSNode.file nm sz :: rest =>
        have hszR : sizeL rest < f := by
          have h1 : sizeL (FSNode.file nm sz :: rest) =
              sizeN (.file nm sz) + sizeL rest := rfl
          have := one_le_sizeN (FSNode.file nm sz)
          omega
        simp only [fuelGo, List.all_cons]
        have hd : dirOkN (FSNode.file nm sz) = true := rfl
        cases htail : fuelGo f (.inr rest) pre d with
        | none =>
          have hspec := (fuelGo_spec f).2 rest pre d hszR
          rw [htail] at hspec
          simp at hspec
        | some t =>
          cases t with
          | error u =>
            have hfr : rest.all dirOkN = false := by
              rw [← Bool.not_eq_true]
              intro htrue
              obtain ⟨out, ho⟩ := (ihL rest pre d hszR).mpr htrue
              rw [htail] at ho
              simp at ho
            simp [hfr, hd]
          | ok tail =>
            have hft : rest.all dirOkN = true := (ihL rest pre d hszR).mp ⟨tail, htail⟩
            simp [hd, hft]

/-- Python `s.startswith(p)`: the characters of `p` are a prefix of the
characters of `s`. -/
def strStartsWith (s p : String) : Bool :=
  p.data.isPrefixOf s.data

/-- POSIX `os.path.join(a, b)`: `b` if `b` is absolute, otherwise `a`
and `b` glued with a separator unless `a` is empty or already ends with
one. -/
def pyJoin (a b : String) : String :=
  if strStartsWith b "/" then b
  else if a.isEmpty || strEndsWith a "/" then a ++ b
  else a ++ "/" ++ b

/-- Line 29 of `DumpTree.py`: `sys.argv[1] if len(sys.argv) > 1 else "."`
(element 0 of `argv` is the program name). -/
def rootArg : List String → String
  | _ :: r :: _ => r
  | _ => "."

/-- Lines 30-32: the output file path,
`os.path.join(os.path.join(root, "docs/"), "project_tree.txt")`. -/
def outFilePath (root : String) : String :=
  pyJoin (pyJoin root "docs/") "project_tree.txt"

/-- The text written for the tree lines: each line followed by a newline,
concatenated in order. -/
def linesText (L : List String) : String :=
  String.join (L.map (fun l => l ++ "\n"))

/-- Lines 34-40: the full content written to the output file: the
timestamp header, a blank line, the root directory name with a trailing
slash, then the tree lines. -/
def mainContent (now rootName : String) (L : List String) : String :=
  "Generated: " ++ now ++ " (local)\n\n" ++ (rootName ++ "/" ++ "\n") ++ linesText L

/-- The observable result of `main` (lines 28-42): the path of the output
file and the content written to it, or the propagated listing failure.
`now` is the formatted `datetime.now()` value, `rootName` is
`os.path.basename(os.path.abspath(root))`, `tree` is the listing of the
root directory. -/
def mainRun (argv : List String) (now rootName : String) (tree : Option (List FSNode)) :
    Except Unit (String × String) :=
  match print_tree tree "" with
  | .error u => .error u
  | .ok L => .ok (outFilePath (rootArg argv), mainContent now rootName L)

/-- Opening a path in mode `"w"` and writing `c`: the file system maps the
path to the new content, regardless of what it mapped to before. -/
def writeFileW (fs : String → Option String) (p c : String) : String → Option String :=
  fun q => if q = p then some c else fs q

/-- The effect of a successful `main` run on a file-system map. -/
def mainFS (fs : String → Option String) (argv : List String) (now rootName : String)
    (tree : Option (List FSNode)) : String → Option String :=
  match mainRun argv now rootName tree with
  | .error _ => fs
  | .ok (p, c) => writeFileW fs p c

theorem strEndsWith_root_docs (root : String) :
    strEndsWith (root ++ "/" ++ "docs/") "/" = true := by
  have h1 : ("/" : String).data <:+ ("docs/" : String).data := by decide
  have h2 : ("docs/" : String).data <:+ ((root ++ "/" ++ "docs/") : String).data := by
    rw [show ((root ++ "/" ++ "docs/") : String).data
        = (root ++ "/").data ++ ("docs/" : String).data from String.data_append _ _]
    exact List.suffix_append _ _
  simpa [strEndsWith] using h1.trans h2

theorem outFilePath_eq (root : String) (h1 : root.isEmpty = false)
    (h2 : strEndsWith root "/" = false) :
    outFilePath root = root ++ "/docs/project_tree.txt" := by
  have hinner : pyJoin root "docs/" = root ++ "/" ++ "docs/" := by
    rw [pyJoin, show strStartsWith "docs/" "/" = false from rfl, h1, h2]
    simp
  rw [outFilePath, hinner, pyJoin,
    show strStartsWith "project_tree.txt" "/" = false from rfl,
    strEndsWith_root_docs]
  simp only [Bool.or_true, if_true, Bool.false_eq_true, if_false, String.append_assoc]
  congr 1

theorem ownLine_shape (pre : String) (b : Bool) (e : FSNode) :
    ∃ t, ownLine pre b e = pre ++ (if b then "└── " else "├── ") ++ t := by
  cases e with
  | dir nm lst =>
    exact ⟨nm ++ "/", by simp [ownLine, String.append_assoc]⟩
  | file nm sz =>
    exact ⟨nm ++ " " ++ fileStatus sz, by simp [ownLine, String.append_assoc]⟩

/-- The connector of the `i`-th line a loop writes at its own level is
`└── ` exactly when `i` is the last index. -/
theorem ownLines_connector (l : List FSNode) (pre : String) :
    ∀ i s, (ownLines l pre)[i]? = some s →
      ∃ t, s = pre ++ (if i = l.length - 1 then "└── " else "├── ") ++ t := by
  induction l with
  | nil => intro i s h; simp [ownLines] at h
  | cons e rest ih =>
    intro i s h
    match i with
    | 0 =>
      rw [ownLines] at h
      simp at h
      obtain ⟨t, ht⟩ := ownLine_shape pre rest.isEmpty e
      refine ⟨t, ?_⟩
      rw [← h, ht]
      cases rest <;> simp
    | i + 1 =>
      cases rest with
      | nil =>
        rw [ownLines, ownLines] at h
        simp at h
      | cons r rs =>
        rw [ownLines] at h
        simp only [List.getElem?_cons_succ] at h
        obtain ⟨t, ht⟩ := ih i s h
        refine ⟨t, ?_⟩
        rw [ht]
        have hcond : (i = (r :: rs).length - 1) = (i + 1 = (e :: r :: rs).length - 1) := by
          simp only [List.length_cons]
          exact propext (by omega)
        simp only [hcond]

theorem except_bind_ok {α β ε : Type} (a : α) (f : α → Except ε β) :
    (Except.ok a >>= f) = f a := rfl

theorem except_bind_error {α β ε : Type} (u : ε) (f : α → Except ε β) :
    ((Except.error u : Except ε α) >>= f) = Except.error u := rfl

/-- C1: for every directory the renderer visits (any prefix and depth),
the output contains exactly one line at that directory's level per
retained child entry — the level records list the retained entries
exactly, in rendering order — and when the directory's entry names are
distinct (as on a real file system) that order is strictly ascending
lexicographic. -/
theorem level_lines_one_per_entry_sorted (cs : List FSNode) (pre : String) (d : Nat)
    (out : List RLine) (hnd : (cs.map FSNode.name).Nodup)
    (h : print_treeA (some cs) pre d = .ok out) :
    (levelRecs out d).length = (keptEntries cs).length ∧
    (levelRecs out d).map RLine.name = (keptEntries cs).map FSNode.name ∧
    ((levelRecs out d).map RLine.name).Pairwise (· < ·) := by
  have hf : fuelGo (sizeO (some cs) + 1) (.inl (some cs)) pre d = some (.ok out) := by
    rw [print_treeA_fuel, h]
  obtain ⟨h1, _⟩ := (fuelGo_level _).1 _ _ _ _ hf
  refine ⟨?_, h1, ?_⟩
  · have := congrArg List.length h1
    simpa using this
  · rw [h1]
    exact kept_names_sorted_lt hnd

/-- C2: an entry whose name is in the exclusion set or has an excluded
suffix is removed by the filter before rendering, at every recursion
level, so no output line is ever written for such an entry at any depth. -/
theorem excluded_never_rendered (lst : Option (List FSNode)) (pre : String) (d : Nat)
    (out : List RLine) (h : print_treeA lst pre d = .ok out) :
    (∀ r ∈ out, excludedName r.name = false) ∧
    (∀ cs : List FSNode, ∀ e ∈ keptEntries cs, excludedName e.name = false) := by
  have hf : fuelGo (sizeO lst + 1) (.inl lst) pre d = some (.ok out) := by
    rw [print_treeA_fuel, h]
  exact ⟨fun r hr => fuelGo_excl _ _ _ _ _ hf (fun l hl => nomatch hl) r hr,
    fun cs e he => (mem_keptEntries.mp he).2⟩

/-- C3: the `i`-th line a level renders starts with the level's prefix
followed by `└── ` exactly when `i` is the last index of the retained
entries, and by `├── ` otherwise; there are as many level lines as
retained entries. -/
theorem connector_last_entry (cs : List FSNode) (pre : String) (d : Nat) (out : List RLine)
    (h : print_treeA (some cs) pre d = .ok out) :
    ((levelRecs out d).map RLine.line).length = (keptEntries cs).length ∧
    ∀ i s, ((levelRecs out d).map RLine.line)[i]? = some s →
      ∃ t, s = pre ++ (if i = (keptEntries cs).length - 1 then "└── " else "├── ") ++ t := by
  have hf : fuelGo (sizeO (some cs) + 1) (.inl (some cs)) pre d = some (.ok out) := by
    rw [print_treeA_fuel, h]
  obtain ⟨_, h2⟩ := (fuelGo_level _).1 _ _ _ _ hf
  constructor
  · rw [h2, ownLines_length]
  · intro i st hs
    rw [h2] at hs
    exact ownLines_connector _ _ i st hs

/-- C4: a retained directory entry is rendered as its own line
`prefix ++ connector ++ name ++ "/"`, then the renderer recurses into it
with the prefix extended by four spaces (if last) or `│   ` (otherwise),
and the whole subtree output precedes the output of the following
siblings. -/
theorem dir_entry_renders_then_recurses (nm : String) (listing : Option (List FSNode))
    (rest : List FSNode) (pre : String) (d : Nat) (out : List RLine) :
    renderLoopA (FSNode.dir nm listing :: rest) pre d = .ok out ↔
      ∃ sub tail,
        print_treeA listing (pre ++ (if rest.isEmpty then "    " else "│   ")) (d + 1) =
          .ok sub ∧
        renderLoopA rest pre d = .ok tail ∧
        out = ⟨d, pre, nm,
          pre ++ (if rest.isEmpty then "└── " else "├── ") ++ nm ++ "/"⟩ :: (sub ++ tail) := by
  constructor
  · intro h
    simp only [renderLoopA] at h
    cases hsub : print_treeA listing
        (pre ++ (if rest.isEmpty then "    " else "│   ")) (d + 1) with
    | error u =>
      rw [hsub, except_bind_error] at h
      simp at h
    | ok sub =>
      rw [hsub, except_bind_ok] at h
      cases htail : renderLoopA rest pre d with
      | error u =>
        rw [htail, except_bind_error] at h
        simp at h
      | ok tail =>
        rw [htail, except_bind_ok] at h
        simp only [Except.ok.injEq] at h
        exact ⟨sub, tail, rfl, rfl, h.symm⟩
  · rintro ⟨sub, tail, hsub, htail, rfl⟩
    simp only [renderLoopA, hsub, htail, except_bind_ok]

/-- C5: a retained non-directory entry is rendered as the single line
`prefix ++ connector ++ name ++ " " ++ status`, where the status is
`[EMPTY]` for size exactly 0, `[OK]` for any size of 1 or more, and `[?]`
when the size read failed; the loop then continues with the remaining
entries. -/
theorem file_entry_status_line (nm : String) (sz : Option Nat) (rest : List FSNode)
    (pre : String) (d : Nat) (out : List RLine) :
    (renderLoopA (FSNode.file nm sz :: rest) pre d = .ok out ↔
      ∃ tail, renderLoopA rest pre d = .ok tail ∧
        out = ⟨d, pre, nm,
          pre ++ (if rest.isEmpty then "└── " else "├── ") ++ nm ++ " " ++ fileStatus sz⟩
          :: tail) ∧
    fileStatus (some 0) = "[EMPTY]" ∧ (∀ k : Nat, fileStatus (some (k + 1)) = "[OK]") ∧
    fileStatus none = "[?]" := by
  refine ⟨?_, rfl, fun k => rfl, rfl⟩
  constructor
  · intro h
    simp only [renderLoopA] at h
    cases htail : renderLoopA rest pre d with
    | error u =>
      rw [htail, except_bind_error] at h
      simp at h
    | ok tail =>
      rw [htail, except_bind_ok] at h
      simp only [Except.ok.injEq] at h
      exact ⟨tail, rfl, h.symm⟩
  · rintro ⟨tail, htail, rfl⟩
    simp only [renderLoopA, htail, except_bind_ok]

/-- C6: a directory-listing failure is not caught: it propagates, and a
run succeeds exactly when every retained directory at every level is
listable — in particular, file-size failures (which `listingsOk` ignores)
never abort the run, they only degrade that entry's status. -/
theorem listing_failure_aborts_run (lst : Option (List FSNode)) (pre : String) (d : Nat) :
    print_treeA none pre d = .error () ∧
    ((∃ out, print_treeA lst pre d = .ok out) ↔ listingsOkO lst = true) := by
  constructor
  · simp [print_treeA]
  · have hf := print_treeA_fuel lst pre d
    have hiff := (fuelGo_success (sizeO lst + 1)).1 lst pre d (Nat.lt_succ_self _)
    rw [hf] at hiff
    simpa using hiff

/-- C7: every rendered line carries an indentation prefix whose length is
the starting prefix's length plus exactly four characters per directory
level descended below the start — for a run started at the root (empty
prefix, depth 0), four times the number of ancestor directories — and the
line is that prefix followed by one of the two connectors. -/
theorem line_indent_four_per_level (lst : Option (List FSNode)) (pre : String) (d : Nat)
    (out : List RLine) (h : print_treeA lst pre d = .ok out) :
    ∀ r ∈ out, d ≤ r.depth ∧ r.pre.length = pre.length + 4 * (r.depth - d) ∧
      ∃ t, r.line = r.pre ++ "├── " ++ t ∨ r.line = r.pre ++ "└── " ++ t := by
  have hf : fuelGo (sizeO lst + 1) (.inl lst) pre d = some (.ok out) := by
    rw [print_treeA_fuel, h]
  exact fuelGo_records _ _ _ _ _ hf

/-- C8: on success `main` writes to `<root>/docs/project_tree.txt` (for a
non-empty root with no trailing separator), overwriting whatever the file
system held at that path, and the content starts with the `Generated:`
timestamp line, a blank line, and the root directory name followed by a
slash, before the tree lines. -/
theorem main_output_path_and_content (argv : List String) (now rootName : String)
    (tree : Option (List FSNode)) (L : List String) (root : String)
    (hroot : rootArg argv = root) (h : print_tree tree "" = .ok L)
    (h1 : root.isEmpty = false) (h2 : strEndsWith root "/" = false) :
    mainRun argv now rootName tree =
      .ok (root ++ "/docs/project_tree.txt",
        "Generated: " ++ now ++ " (local)\n\n" ++ (rootName ++ "/" ++ "\n") ++ linesText L) ∧
    ∀ fs : String → Option String,
      mainFS fs argv now rootName tree (root ++ "/docs/project_tree.txt") =
        some ("Generated: " ++ now ++ " (local)\n\n" ++
          (rootName ++ "/" ++ "\n") ++ linesText L) := by
  have hm : mainRun argv now rootName tree =
      .ok (root ++ "/docs/project_tree.txt",
        "Generated: " ++ now ++ " (local)\n\n" ++ (rootName ++ "/" ++ "\n") ++ linesText L) := by
    rw [mainRun, h, hroot, outFilePath_eq root h1 h2]
    rfl
  refine ⟨hm, fun fs => ?_⟩
  rw [mainFS, hm]
  simp [writeFileW]

/-- C9: two successful runs over the same tree write to the same path and
their contents agree byte for byte after the generation timestamp line. -/
theorem rerun_identical_except_timestamp (argv : List String) (now₁ now₂ rootName : String)
    (tree : Option (List FSNode)) (p₁ c₁ p₂ c₂ : String)
    (h₁ : mainRun argv now₁ rootName tree = .ok (p₁, c₁))
    (h₂ : mainRun argv now₂ rootName tree = .ok (p₂, c₂)) :
    p₁ = p₂ ∧ ∃ rest : String,
      c₁ = "Generated: " ++ now₁ ++ " (local)\n\n" ++ rest ∧
      c₂ = "Generated: " ++ now₂ ++ " (local)\n\n" ++ rest := by
  cases hpt : print_tree tree "" with
  | error u =>
    rw [mainRun, hpt] at h₁
    simp at h₁
  | ok L =>
    rw [mainRun, hpt] at h₁ h₂
    simp only [Except.ok.injEq, Prod.mk.injEq] at h₁ h₂
    obtain ⟨hp₁, hc₁⟩ := h₁
    obtain ⟨hp₂, hc₂⟩ := h₂
    refine ⟨by rw [← hp₁, ← hp₂], (rootName ++ "/" ++ "\n") ++ linesText L, ?_, ?_⟩
    · rw [← hc₁]
      simp [mainContent, String.append_assoc]
    · rw [← hc₂]
      simp [mainContent, String.append_assoc]

/-- C10: the recursion of `print_tree` terminates on every finite tree:
the fuel-bounded interpreter, given fuel one more than the tree's size
(each recursive call descends into a strict subtree), completes and
computes the total function `print_treeA`. -/
theorem print_tree_terminates (lst : Option (List FSNode)) (pre : String) (d : Nat) :
    fuelTree (sizeO lst + 1) lst pre d = some (print_treeA lst pre d) :=
  fuelTree_spec _ _ _ _ (Nat.lt_succ_self _)

/-- A small concrete tree for witnesses: the scenario of the spec with
`a.txt` (0 bytes), `b.txt` (5 bytes), and `sub/` containing `c.txt`
(3 bytes), listed out of order. -/
def wTree : List FSNode :=
  [.file "b.txt" (some 5), .dir "sub" (some [.file "c.txt" (some 3)]), .file "a.txt" (some 0)]

/-- The renderer output on `wTree`. -/
def wOut : List RLine :=
  [⟨0, "", "a.txt", "├── a.txt [EMPTY]"⟩, ⟨0, "", "b.txt", "├── b.txt [OK]"⟩,
   ⟨0, "", "sub", "└── sub/"⟩, ⟨1, "    ", "c.txt", "    └── c.txt [OK]"⟩]

/-- A concrete tree containing excluded entries at several levels. -/
def wTree2 : List FSNode :=
  [.dir "build" (some [.file "x" (some 1)]), .file "a.class" (some 2),
   .dir "src" (some [.file "A.iml" (some 7), .file "ok.txt" none]), .dir ".git" none]

/-- The renderer output on `wTree2`: only `src/` and the non-excluded
`ok.txt` (whose size read failed) survive. -/
def wOut2 : List RLine :=
  [⟨0, "", "src", "└── src/"⟩, ⟨1, "    ", "ok.txt", "    └── ok.txt [?]"⟩]

theorem level_lines_one_per_entry_sorted_witness :
    ((wTree.map FSNode.name).Nodup ∧ print_treeA (some wTree) "" 0 = .ok wOut) ∧
    ((levelRecs wOut 0).length = (keptEntries wTree).length ∧
     (levelRecs wOut 0).map RLine.name = (keptEntries wTree).map FSNode.name ∧
     ((levelRecs wOut 0).map RLine.name).Pairwise (· < ·)) :=
  ⟨⟨by decide, print_treeA_eval _ _ _ _ rfl⟩,
   level_lines_one_per_entry_sorted wTree "" 0 wOut (by decide)
     (print_treeA_eval _ _ _ _ rfl)⟩

theorem excluded_never_rendered_witness :
    print_treeA (some wTree2) "" 0 = .ok wOut2 ∧
    (∀ r ∈ wOut2, excludedName r.name = false) :=
  ⟨print_treeA_eval _ _ _ _ rfl,
   (excluded_never_rendered (some wTree2) "" 0 wOut2 (print_treeA_eval _ _ _ _ rfl)).1⟩

theorem connector_last_entry_witness :
    print_treeA (some wTree) "" 0 = .ok wOut ∧
    (((levelRecs wOut 0).map RLine.line).length = (keptEntries wTree).length ∧
     ∀ i s, ((levelRecs wOut 0).map RLine.line)[i]? = some s →
       ∃ t, s = "" ++ (if i = (keptEntries wTree).length - 1 then "└── " else "├── ") ++ t) :=
  ⟨print_treeA_eval _ _ _ _ rfl,
   connector_last_entry wTree "" 0 wOut (print_treeA_eval _ _ _ _ rfl)⟩

theorem line_indent_four_per_level_witness :
    print_treeA (some wTree) "" 0 = .ok wOut ∧
    ∀ r ∈ wOut, 0 ≤ r.depth ∧ r.pre.length = ("" : String).length + 4 * (r.depth - 0) ∧
      ∃ t, r.line = r.pre ++ "├── " ++ t ∨ r.line = r.pre ++ "└── " ++ t :=
  ⟨print_treeA_eval _ _ _ _ rfl,
   line_indent_four_per_level (some wTree) "" 0 wOut (print_treeA_eval _ _ _ _ rfl)⟩

theorem main_output_path_and_content_witness :
    (rootArg ["prog", "proj"] = "proj" ∧
     print_tree (some wTree) "" = .ok ["├── a.txt [EMPTY]", "├── b.txt [OK]", "└── sub/",
       "    └── c.txt [OK]"] ∧
     ("proj" : String).isEmpty = false ∧ strEndsWith "proj" "/" = false) ∧
    (mainRun ["prog", "proj"] "2026-10-12 00:00:00" "proj" (some wTree) =
       .ok ("proj" ++ "/docs/project_tree.txt",
         "Generated: " ++ "2026-10-12 00:00:00" ++ " (local)\n\n" ++ ("proj" ++ "/" ++ "\n") ++
           linesText ["├── a.txt [EMPTY]", "├── b.txt [OK]", "└── sub/", "    └── c.txt [OK]"]) ∧
     ∀ fs : String → Option String,
       mainFS fs ["prog", "proj"] "2026-10-12 00:00:00" "proj" (some wTree)
           ("proj" ++ "/docs/project_tree.txt") =
         some ("Generated: " ++ "2026-10-12 00:00:00" ++ " (local)\n\n" ++
           ("proj" ++ "/" ++ "\n") ++
           linesText ["├── a.txt [EMPTY]", "├── b.txt [OK]", "└── sub/",
             "    └── c.txt [OK]"])) := by
  have hpt : print_tree (some wTree) "" =
      .ok ["├── a.txt [EMPTY]", "├── b.txt [OK]", "└── sub/", "    └── c.txt [OK]"] := by
    rw [print_tree, print_treeA_eval (some wTree) "" 0 (.ok wOut) rfl]
    rfl
  exact ⟨⟨rfl, hpt, rfl, rfl⟩,
    main_output_path_and_content ["prog", "proj"] "2026-10-12 00:00:00" "proj" (some wTree)
      ["├── a.txt [EMPTY]", "├── b.txt [OK]", "└── sub/", "    └── c.txt [OK]"] "proj"
      rfl hpt rfl rfl⟩

theorem rerun_identical_except_timestamp_witness :
    (mainRun ["prog", "proj"] "2026-10-12 08:00:00" "proj" (some wTree) =
       .ok ("proj/docs/project_tree.txt",
         mainContent "2026-10-12 08:00:00" "proj"
           ["├── a.txt [EMPTY]", "├── b.txt [OK]", "└── sub/", "    └── c.txt [OK]"]) ∧
     mainRun ["prog", "proj"] "2026-10-12 09:00:00" "proj" (some wTree) =
       .ok ("proj/docs/project_tree.txt",
         mainContent "2026-10-12 09:00:00" "proj"
           ["├── a.txt [EMPTY]", "├── b.txt [OK]", "└── sub/", "    └── c.txt [OK]"])) ∧
    ("proj/docs/project_tree.txt" : String) = "proj/docs/project_tree.txt" ∧
    ∃ rest : String,
      mainContent "2026-10-12 08:00:00" "proj"
          ["├── a.txt [EMPTY]", "├── b.txt [OK]", "└── sub/", "    └── c.txt [OK]"] =
        "Generated: " ++ "2026-10-12 08:00:00" ++ " (local)\n\n" ++ rest ∧
      mainContent "2026-10-12 09:00:00" "proj"
          ["├── a.txt [EMPTY]", "├── b.txt [OK]", "└── sub/", "    └── c.txt [OK]"] =
        "Generated: " ++ "2026-10-12 09:00:00" ++ " (local)\n\n" ++ rest := by
  have hpt : print_tree (some wTree) "" =
      .ok ["├── a.txt [EMPTY]", "├── b.txt [OK]", "└── sub/", "    └── c.txt [OK]"] := by
    rw [print_tree, print_treeA_eval (some wTree) "" 0 (.ok wOut) rfl]
    rfl
  have h₁ : mainRun ["prog", "proj"] "2026-10-12 08:00:00" "proj" (some wTree) =
      .ok ("proj/docs/project_tree.txt",
        mainContent "2026-10-12 08:00:00" "proj"
          ["├── a.txt [EMPTY]", "├── b.txt [OK]", "└── sub/", "    └── c.txt [OK]"]) := by
    rw [mainRun, hpt]
    rfl
  have h₂ : mainRun ["prog", "proj"] "2026-10-12 09:00:00" "proj" (some wTree) =
      .ok ("proj/docs/project_tree.txt",
        mainContent "2026-10-12 09:00:00" "proj"
          ["├── a.txt [EMPTY]", "├── b.txt [OK]", "└── sub/", "    └── c.txt [OK]"]) := by
    rw [mainRun, hpt]
    rfl
  exact ⟨⟨h₁, h₂⟩,
    rerun_identical_except_timestamp ["prog", "proj"] "2026-10-12 08:00:00"
      "2026-10-12 09:00:00" "proj" (some wTree) _ _ _ _ h₁ h₂⟩

end DumpTree